import Mathlib

/-!
Verification of the scraper core: the HTML document wrapper (`Html`), the
element-reference/query layer (`ElementRef`), selection, text extraction,
node removal and serialization glue, embedded shallowly from
`src/html/mod.rs` and `src/element_ref/mod.rs`.

The node model, the arena tree, the selector predicate, the tree sink and
the byte-to-string encoder live outside the two source files (in
`crate::node`, `crate::selector`, the `ego_tree` crate, `tree_sink.rs`,
and the `auto_encoder` crate); those are modelled from the specification,
as marked on each definition.
-/

namespace Scraper

/-- Modelled from the spec: the attribute-carrying element data of
`crate::node::Element` (missing from the sources). Attribute keys are
unique, stored as name/value pairs. -/
structure Element where
  name : String
  attrs : List (String × String)
  deriving DecidableEq, Repr

/-- Modelled from the spec: attribute lookup on an element, `None` when the
attribute is absent. -/
def Element.attr (e : Element) (key : String) : Option String :=
  (e.attrs.find? (fun p => p.1 == key)).map (fun p => p.2)

/-- Modelled from the spec: the tagged node variants of `crate::node::Node`
(missing from the sources): Document, Fragment, Doctype, Comment, Text,
Element, ProcessingInstruction. -/
inductive Node where
  | document : Node
  | fragment : Node
  | doctype (name publicId systemId : String) : Node
  | comment (content : String) : Node
  | text (content : String) : Node
  | element (e : Element) : Node
  | processingInstruction (target data : String) : Node
  deriving DecidableEq, Repr

/-- Modelled from the spec: the `is_element` narrowing test on a node. -/
def Node.is_element : Node → Bool
  | Node.element _ => true
  | _ => false

/-- Modelled from the spec: the `as_element` narrowing on a node, returning
the element data only for the Element variant. -/
def Node.as_element : Node → Option Element
  | Node.element e => some e
  | _ => none

/-- Modelled from the spec: one arena slot of the `ego_tree` arena tree:
a node value plus its parent link and its ordered children. -/
structure TreeNode where
  parent : Option Nat
  children : List Nat
  value : Node
  deriving DecidableEq, Repr

/-- Modelled from the spec: the arena-backed tree of `ego_tree::Tree`.
Nodes are addressed by arena index (`NodeId`); the designated root sits at
index 0. -/
structure Tree where
  arena : List TreeNode
  deriving DecidableEq, Repr

/-- Look a node up by its identifier; `none` when the identifier does not
resolve. -/
def Tree.get (t : Tree) (i : Nat) : Option TreeNode :=
  t.arena.get? i

/-- The node value stored at an identifier. -/
def nodeValue (t : Tree) (i : Nat) : Option Node :=
  (t.get i).map TreeNode.value

/-- The parent link of the node at an identifier. -/
def parentOf (t : Tree) (i : Nat) : Option Nat :=
  match t.get i with
  | some n => n.parent
  | none => none

/-- The ordered children of the node at an identifier. -/
def childrenOf (t : Tree) (i : Nat) : List Nat :=
  match t.get i with
  | some n => n.children
  | none => []

/-- Whether the node at an identifier exists and is an element. -/
def isElem (t : Tree) (i : Nat) : Bool :=
  match nodeValue t i with
  | some v => v.is_element
  | none => false

/-- The tag name of the node at an identifier, when it is an element. -/
def elemName (t : Tree) (i : Nat) : Option String :=
  match nodeValue t i with
  | some v => (v.as_element).map Element.name
  | none => none

/-- Modelled from the spec: document order (glossary: depth-first walk,
children before following siblings), as produced by walking the tree from
a node. `fuel` bounds the recursion depth; any fuel at least the tree
depth yields the full walk. -/
def dfs (t : Tree) : Nat → Nat → List Nat
  | 0, _ => []
  | fuel + 1, i =>
    match t.get i with
    | none => []
    | some n => i :: n.children.flatMap (fun c => dfs t fuel c)

/-- The document-order list of all node identifiers, starting at the root. -/
def docOrder (t : Tree) (fuel : Nat) : List Nat :=
  dfs t fuel 0

/-- Modelled from the spec: the traversal edges of `ego_tree::iter::Traverse`:
an `enter` (Edge::Open) when the walk first reaches a node and a `leave`
(Edge::Close) after its subtree is finished. -/
inductive Edge where
  | enter (i : Nat) : Edge
  | leave (i : Nat) : Edge
  deriving DecidableEq, Repr

/-- Modelled from the spec: the edge stream of the depth-first subtree
traversal used by `ElementRef::traverse`. -/
def edges (t : Tree) : Nat → Nat → List Edge
  | 0, _ => []
  | fuel + 1, i =>
    match t.get i with
    | none => []
    | some n =>
      Edge.enter i :: (n.children.flatMap (fun c => edges t fuel c) ++ [Edge.leave i])

/-- Replace the element at one position of a list by applying a function,
leaving every other position unchanged. -/
def modifyAt {α : Type} (f : α → α) : Nat → List α → List α
  | _, [] => []
  | 0, x :: xs => f x :: xs
  | n + 1, x :: xs => x :: modifyAt f n xs

/-- Modelled from the spec: `ego_tree` `detach`: unlink the node from its
parent (clear its parent link and remove it from the child list of the parent).
A node without a parent is left untouched, as is an unresolvable
identifier. The subtree below the node keeps its internal links. -/
def Tree.detach (t : Tree) (i : Nat) : Tree :=
  match parentOf t i with
  | none => t
  | some p =>
    ⟨modifyAt (fun nd => { nd with children := nd.children.filter (fun c => c ≠ i) }) p
      (modifyAt (fun nd => { nd with parent := none }) i t.arena)⟩

/-- Modelled from the spec: an abstract parsed CSS selector, consumed only
through its match predicate `matches(element, optional_scope_root)`
(`crate::selector::Selector`, missing from the sources). -/
structure Selector where
  matchesScope : Tree → Nat → Option Nat → Bool

/-- Source `Selector::matches`: the match predicate with no scope restriction. -/
def Selector.matches (s : Selector) (t : Tree) (i : Nat) : Bool :=
  s.matchesScope t i none

/-- Modelled from the spec: a selector matching by tag name alone, used to
instantiate the abstract predicate on concrete documents. -/
def tagSelector (nm : String) : Selector :=
  ⟨fun t i _ => elemName t i == some nm⟩

/-- Modelled from the spec: the fixed selector `Selector::parse("html")`
kept in the `HTML_SELECTOR` lazy static. -/
def htmlSelector : Selector :=
  tagSelector "html"

/-- Modelled from the spec: the quirks-mode flag of
`fast_html5ever::tree_builder::QuirksMode`. -/
inductive QuirksMode where
  | noQuirks : QuirksMode
  | limitedQuirks : QuirksMode
  | quirks : QuirksMode
  deriving DecidableEq, Repr

/-- The `Html` document wrapper of `src/html/mod.rs`: quirks mode, the node
tree and the document language. (The struct carries no parse-error log.) -/
structure Html where
  quirks_mode : QuirksMode
  tree : Tree
  lang : String
  deriving DecidableEq, Repr

/-- Source `Html::new_document`: an empty tree rooted at a Document node. -/
def Html.new_document : Html :=
  { quirks_mode := QuirksMode.noQuirks,
    tree := ⟨[⟨none, [], Node.document⟩]⟩,
    lang := "" }

/-- Source `Html::new_fragment`: an empty tree rooted at a Fragment node. -/
def Html.new_fragment : Html :=
  { quirks_mode := QuirksMode.noQuirks,
    tree := ⟨[⟨none, [], Node.fragment⟩]⟩,
    lang := "" }

/-- The per-candidate test of `<Select as Iterator>::next` in
`src/html/mod.rs`: wrap the node as an element, require a parent, and ask
the selector with no scope restriction. -/
def docSelectPred (t : Tree) (sel : Selector) (i : Nat) : Bool :=
  isElem t i && (parentOf t i).isSome && sel.matches t i

/-- One step of the document-level `Select` iterator (`next`): scan the
remaining nodes forward for the first one passing `docSelectPred`, and
return it with the rest of the iterator state. -/
def selectNextD (t : Tree) (sel : Selector) : List Nat → Option (Nat × List Nat)
  | [] => none
  | i :: rest =>
    if docSelectPred t sel i then some (i, rest) else selectNextD t sel rest

/-- Fully consume the document-level `Select` iterator forward by repeated
`next`; `fuel` bounds the number of steps. -/
def consumeFwd (t : Tree) (sel : Selector) : Nat → List Nat → List Nat
  | 0, _ => []
  | fuel + 1, l =>
    match selectNextD t sel l with
    | none => []
    | some (i, rest) => i :: consumeFwd t sel fuel rest

/-- One step of the document-level `Select` iterator from the back
(`<Select as DoubleEndedIterator>::next_back`): scan the remaining nodes in
reverse for the first match, consuming from the back. -/
def selectNextBackD (t : Tree) (sel : Selector) (l : List Nat) : Option (Nat × List Nat) :=
  match selectNextD t sel l.reverse with
  | none => none
  | some (i, rrest) => some (i, rrest.reverse)

/-- Fully consume the document-level `Select` iterator backward by repeated
`next_back`. -/
def consumeBwd (t : Tree) (sel : Selector) : Nat → List Nat → List Nat
  | 0, _ => []
  | fuel + 1, l =>
    match selectNextBackD t sel l with
    | none => []
    | some (i, rest) => i :: consumeBwd t sel fuel rest

/-- Source `Html::select` fully consumed forward: a fresh iterator over every tree
node in document order, filtered by `docSelectPred`. -/
def Html.selectIds (h : Html) (sel : Selector) (fuel : Nat) : List Nat :=
  consumeFwd h.tree sel (docOrder h.tree fuel).length (docOrder h.tree fuel)

/-- Source `Html::select` fully consumed backward via `next_back`. -/
def Html.selectIdsBack (h : Html) (sel : Selector) (fuel : Nat) : List Nat :=
  consumeBwd h.tree sel (docOrder h.tree fuel).length (docOrder h.tree fuel)

/-- Source `Html::remove_node`: detach the node a resolvable identifier points at;
a no-op when the identifier does not resolve. -/
def Html.remove_node (h : Html) (i : Nat) : Html :=
  match h.tree.get i with
  | none => h
  | some _ => { h with tree := h.tree.detach i }

/-- Source `Html::set_language`: overwrite the document language. -/
def Html.set_language (h : Html) (lang : String) : Html :=
  { h with lang := lang }

/-- Source `Html::get_lang`: the explicit language if non-empty, otherwise the
`lang` attribute of the first element yielded by selecting with the fixed
`html` selector, otherwise the (empty) stored language. -/
def Html.get_lang (h : Html) (fuel : Nat) : String :=
  if h.lang.isEmpty then
    match (h.selectIds htmlSelector fuel).head? with
    | some i =>
      match (nodeValue h.tree i).bind Node.as_element with
      | some e =>
        match e.attr "lang" with
        | some lang => lang
        | none => h.lang
      | none => h.lang
    | none => h.lang
  else
    h.lang

/-- The `ElementRef` handle of `src/element_ref/mod.rs`: a node identifier
plus the (currently always empty) element language. -/
structure ElementRef where
  id : Nat
  lang : String
  deriving DecidableEq, Repr

/-- Source `ElementRef::new`: wrap an identifier with the empty language. -/
def ElementRef.new (i : Nat) : ElementRef :=
  ⟨i, ""⟩

/-- Source `ElementRef::wrap`: wrap a node only if it is an Element variant. -/
def ElementRef.wrap (t : Tree) (i : Nat) : Option ElementRef :=
  if (nodeValue t i).any Node.is_element then some (ElementRef.new i) else none

/-- Source `ElementRef::value`: the element data behind the handle; `none` models
the panicking non-element branch of the `unwrap`. -/
def ElementRef.val (t : Tree) (r : ElementRef) : Option Element :=
  (nodeValue t r.id).bind Node.as_element

/-- Source `ElementRef::attr`: attribute lookup through the handle. -/
def ElementRef.attrOf (t : Tree) (r : ElementRef) (key : String) : Option String :=
  (ElementRef.val t r).bind (fun e => e.attr key)

/-- Source `Html::root_element`: the first element child of the tree root, wrapped;
`none` models the `expect("html node missing")` panic. -/
def Html.root_element (h : Html) : Option ElementRef :=
  ((childrenOf h.tree 0).find? (fun c => isElem h.tree c)).bind
    (fun c => ElementRef.wrap h.tree c)

/-- The per-edge yield of the scoped `<Select as Iterator>::next` in
`src/element_ref/mod.rs`: only `enter` edges, wrapped as elements, matched
with the scope anchor supplied on every candidate. -/
def scopedSelFn (t : Tree) (sel : Selector) (scope : Nat) : Edge → Option Nat
  | Edge.enter d =>
    if isElem t d && sel.matchesScope t d (some scope) then some d else none
  | Edge.leave _ => none

/-- Source `ElementRef::select` fully consumed: traverse the subtree edges, skip
the first edge (`Edge::Open(self)`), and yield matching elements with
`self` as the `:scope` anchor. -/
def ElementRef.selectIds (t : Tree) (sel : Selector) (e : Nat) (fuel : Nat) : List Nat :=
  ((edges t fuel e).drop 1).filterMap (scopedSelFn t sel e)

/-- The per-edge filter of `<Text as Iterator>::next`: a node is processable
unless its immediate parent is an element named `script` or `style`. -/
def processable (t : Tree) (d : Nat) : Bool :=
  match parentOf t d with
  | some p =>
    match (nodeValue t p).bind Node.as_element with
    | some e => !(e.name == "script" || e.name == "style")
    | none => true
  | none => true

/-- The per-edge yield of `<Text as Iterator>::next`: on an `enter` edge,
skip unprocessable nodes, then yield the content of Text nodes. -/
def textFn (t : Tree) : Edge → Option String
  | Edge.enter d =>
    if processable t d then
      match nodeValue t d with
      | some (Node.text s) => some s
      | _ => none
    else none
  | Edge.leave _ => none

/-- Source `ElementRef::text` fully consumed: traverse the subtree edges (the
first edge included) and yield text-node content filtered by
`processable`. -/
def ElementRef.textSlices (t : Tree) (e : Nat) (fuel : Nat) : List String :=
  (edges t fuel e).filterMap (textFn t)

/-- Modelled from the spec: the parse events of the tree-construction
callback interface (`tree_sink.rs`, missing from the sources): create and
append nodes, set the quirks mode, report a non-fatal parse error. -/
inductive SinkEvent where
  | createElement (parent : Nat) (name : String) (attrs : List (String × String)) : SinkEvent
  | appendText (parent : Nat) (content : String) : SinkEvent
  | appendComment (parent : Nat) (content : String) : SinkEvent
  | appendDoctype (name publicId systemId : String) : SinkEvent
  | appendPI (parent : Nat) (target data : String) : SinkEvent
  | setQuirksMode (m : QuirksMode) : SinkEvent
  | parseError (msg : String) : SinkEvent
  deriving DecidableEq, Repr

/-- Modelled from the spec: duplicate attribute names are ignored, first
occurrence wins. -/
def dedupAttrs : List (String × String) → List (String × String)
  | [] => []
  | a :: rest => a :: (dedupAttrs rest).filter (fun b => b.1 ≠ a.1)

/-- Modelled from the spec: allocate a fresh node at the end of the arena
and append it as the last child of the given parent. -/
def Tree.appendNode (t : Tree) (parent : Nat) (v : Node) : Tree :=
  ⟨(modifyAt (fun nd => { nd with children := nd.children ++ [t.arena.length] }) parent
      t.arena) ++ [⟨some parent, [], v⟩]⟩

/-- Modelled from the spec: one step of the `TreeSink` implementation on
`Html`. A `parseError` event leaves the state unchanged: the `Html` struct
in `src/html/mod.rs` has no `errors` field, so the message has nowhere to
be recorded, although the doc comment of the struct says errors are added
to the `errors` field. -/
def sinkStep (h : Html) : SinkEvent → Html
  | SinkEvent.createElement p nm attrs =>
    { h with tree := h.tree.appendNode p (Node.element ⟨nm, dedupAttrs attrs⟩) }
  | SinkEvent.appendText p s => { h with tree := h.tree.appendNode p (Node.text s) }
  | SinkEvent.appendComment p s => { h with tree := h.tree.appendNode p (Node.comment s) }
  | SinkEvent.appendDoctype nm pu sy =>
    { h with tree := h.tree.appendNode 0 (Node.doctype nm pu sy) }
  | SinkEvent.appendPI p tg dt =>
    { h with tree := h.tree.appendNode p (Node.processingInstruction tg dt) }
  | SinkEvent.setQuirksMode m => { h with quirks_mode := m }
  | SinkEvent.parseError _ => h

/-- Modelled from the spec: drive the sink over a whole parse-event stream,
best effort, never aborting. -/
def sinkRun (h : Html) (es : List SinkEvent) : Html :=
  es.foldl sinkStep h

/-- Source `Html::parse_document`, with the external parser driver abstracted as
the event stream it feeds to the sink. -/
def Html.parse_document (es : List SinkEvent) : Html :=
  sinkRun Html.new_document es

/-- Source `Html::parse_fragment`, with the external parser driver abstracted as
the event stream it feeds to the sink. -/
def Html.parse_fragment (es : List SinkEvent) : Html :=
  sinkRun Html.new_fragment es

/-- Whether a byte is a UTF-8 continuation byte. -/
def isCont (b : Nat) : Bool :=
  128 ≤ b && b < 192

/-- Modelled from the spec: one step of byte-to-string decoding. `none`
means the input is exhausted; `some (some c, r)` decodes one code point;
`some (none, r)` consumes one undecodable lead byte. -/
def utf8Step : List Nat → Option (Option Nat × List Nat)
  | [] => none
  | b :: rest =>
    if b < 128 then some (some b, rest)
    else if 194 ≤ b && b < 224 then
      match rest with
      | c1 :: r2 =>
        if isCont c1 then some (some ((b - 192) * 64 + (c1 - 128)), r2)
        else some (none, rest)
      | [] => some (none, [])
    else if 224 ≤ b && b < 240 then
      match rest with
      | c1 :: c2 :: r3 =>
        if isCont c1 && isCont c2 then
          some (some ((b - 224) * 4096 + (c1 - 128) * 64 + (c2 - 128)), r3)
        else some (none, rest)
      | _ => some (none, rest)
    else if 240 ≤ b && b < 245 then
      match rest with
      | c1 :: c2 :: c3 :: r4 =>
        if isCont c1 && isCont c2 && isCont c3 then
          some (some ((b - 240) * 262144 + (c1 - 128) * 4096 + (c2 - 128) * 64 + (c3 - 128)), r4)
        else some (none, rest)
      | _ => some (none, rest)
    else some (none, rest)

/-- Modelled from the spec: total decoding with repair — an undecodable
byte becomes the replacement code point 0xFFFD (65533) instead of an
error. The output is the list of decoded code points. -/
def decodeReplace : Nat → List Nat → List Nat
  | 0, _ => []
  | fuel + 1, bs =>
    match utf8Step bs with
    | none => []
    | some (some c, r) => c :: decodeReplace fuel r
    | some (none, r) => 65533 :: decodeReplace fuel r

/-- Strict decoding: fails on the first undecodable byte. Used only to
state that the repairing decoder extends it. -/
def decodeStrict : Nat → List Nat → Option (List Nat)
  | 0, bs => if bs.isEmpty then some [] else none
  | fuel + 1, bs =>
    match utf8Step bs with
    | none => some []
    | some (some c, r) => (decodeStrict fuel r).map (fun l => c :: l)
    | some (none, _) => none

/-- Modelled from the spec: `auto_encoder::auto_encode_bytes`, the total
byte-to-string conversion (output as decoded code points). -/
def autoEncodeBytes (bs : List Nat) : List Nat :=
  decodeReplace bs.length bs

/-- The three serialization entry points: whole document, one node
including its tags, or children only. -/
inductive SerInput where
  | doc (t : Tree) : SerInput
  | node (t : Tree) (i : Nat) : SerInput
  | childrenOnly (t : Tree) (i : Nat) : SerInput

/-- Source `Html::html`: run the external serializer (abstracted as a function
returning the written bytes and an error flag), discard the error flag as
`let _ = serialize(..)` does, and convert the bytes. -/
def Html.htmlCode (h : Html) (ser : SerInput → List Nat × Bool) : List Nat :=
  autoEncodeBytes (ser (SerInput.doc h.tree)).1

/-- Source `ElementRef::html`: serialization with `TraversalScope::IncludeNode`. -/
def ElementRef.htmlCode (t : Tree) (r : ElementRef) (ser : SerInput → List Nat × Bool) : List Nat :=
  autoEncodeBytes (ser (SerInput.node t r.id)).1

/-- Source `ElementRef::inner_html`: serialization with
`TraversalScope::ChildrenOnly`. -/
def ElementRef.innerHtmlCode (t : Tree) (r : ElementRef) (ser : SerInput → List Nat × Bool) : List Nat :=
  autoEncodeBytes (ser (SerInput.childrenOnly t r.id)).1

/-- A concrete parsed document used to instantiate the theorems:
a Document root over an `html` element (with a `lang` attribute) holding a
`div` (with a `p` containing text and a `script` containing text) and a
second `p`. -/
def sampleDoc : Html :=
  { quirks_mode := QuirksMode.noQuirks,
    tree := ⟨[
      ⟨none, [1], Node.document⟩,
      ⟨some 0, [2, 3], Node.element ⟨"html", [("lang", "fr")]⟩⟩,
      ⟨some 1, [4, 5], Node.element ⟨"div", []⟩⟩,
      ⟨some 1, [], Node.element ⟨"p", []⟩⟩,
      ⟨some 2, [6], Node.element ⟨"p", []⟩⟩,
      ⟨some 2, [7], Node.element ⟨"script", []⟩⟩,
      ⟨some 4, [], Node.text "hi"⟩,
      ⟨some 5, [], Node.text "var x"⟩]⟩,
    lang := "" }

/-- A concrete document whose root children start with a doctype and a
comment before the first element. -/
def sampleDoc2 : Html :=
  { quirks_mode := QuirksMode.noQuirks,
    tree := ⟨[
      ⟨none, [1, 2, 3], Node.document⟩,
      ⟨some 0, [], Node.doctype "html" "" ""⟩,
      ⟨some 0, [], Node.comment " c "⟩,
      ⟨some 0, [], Node.element ⟨"html", []⟩⟩]⟩,
    lang := "" }

/-- Lift a per-node yield function to traversal edges: applied on `enter`
edges, `none` on `leave` edges. -/
def onEnter {β : Type} (g : Nat → Option β) : Edge → Option β
  | Edge.enter d => g d
  | Edge.leave _ => none

/-- The exclusion predicate of the text-extraction contract: the immediate
parent of the node is an element whose tag name equals `script` or `style`
(case-sensitive exact comparison). -/
def parentScriptStyle (t : Tree) (d : Nat) : Bool :=
  match parentOf t d with
  | some p =>
    match elemName t p with
    | some nm => nm == "script" || nm == "style"
    | none => false
  | none => false

/-- Reachability along child links: the second node lies in the subtree of
the first, following children lists. -/
inductive ChPath (t : Tree) : Nat → Nat → Prop
  | refl (a : Nat) : ChPath t a a
  | step {a b c : Nat} : ChPath t a b → c ∈ childrenOf t b → ChPath t a c

/-- The well-formedness the parsed arena maintains: every child link is
mirrored by the matching parent link (spec: every non-root node has
exactly one parent). Stated boundedly over the arena so it is decidable
on concrete trees. -/
def UniqueParents (t : Tree) : Prop :=
  ∀ a, a < t.arena.length → ∀ b ∈ childrenOf t a, parentOf t b = some a

instance (t : Tree) : Decidable (UniqueParents t) := by
  unfold UniqueParents
  infer_instance

/-! ## Helper lemmas -/

theorem modifyAt_get? {α : Type} (f : α → α) :
    ∀ (i j : Nat) (l : List α),
      (modifyAt f i l).get? j = if i = j then (l.get? j).map f else l.get? j := by
  intro i j l
  induction l generalizing i j with
  | nil => simp [modifyAt]
  | cons x xs ih =>
    cases i with
    | zero =>
      cases j with
      | zero => simp [modifyAt]
      | succ j => simp [modifyAt]
    | succ i =>
      cases j with
      | zero => simp [modifyAt]
      | succ j =>
        simp only [modifyAt, List.get?_cons_succ, ih i j]
        by_cases h : i = j <;> simp [h]

theorem get_none_of_le {t : Tree} {i : Nat} (h : t.arena.length ≤ i) : t.get i = none := by
  simp [Tree.get, List.get?_eq_none]
  exact h

theorem ChPath.front {t : Tree} {a b d : Nat} (hab : b ∈ childrenOf t a)
    (h : ChPath t b d) : ChPath t a d := by
  induction h with
  | refl => exact ChPath.step (ChPath.refl a) hab
  | step _ hc ih => exact ChPath.step ih hc

theorem dfs_mem_chpath {t : Tree} :
    ∀ {f s d : Nat}, d ∈ dfs t f s → ChPath t s d := by
  intro f
  induction f with
  | zero => intro s d h; simp [dfs] at h
  | succ f ih =>
    intro s d h
    rw [dfs] at h
    cases hg : t.get s with
    | none => rw [hg] at h; simp at h
    | some n =>
      rw [hg] at h
      rcases List.mem_cons.1 h with rfl | h2
      · exact ChPath.refl d
      · rcases List.mem_flatMap.1 h2 with ⟨c, hc, hd⟩
        have hcs : c ∈ childrenOf t s := by simp [childrenOf, hg, hc]
        exact ChPath.front hcs (ih hd)

theorem selectNextD_none {t : Tree} {sel : Selector} :
    ∀ {l : List Nat}, selectNextD t sel l = none →
      l.filter (docSelectPred t sel) = [] := by
  intro l
  induction l with
  | nil => intro _; rfl
  | cons x xs ih =>
    intro h
    rw [selectNextD] at h
    by_cases hp : docSelectPred t sel x
    · simp [hp] at h
    · rw [if_neg hp] at h
      simp [List.filter_cons, hp, ih h]

theorem selectNextD_some {t : Tree} {sel : Selector} :
    ∀ {l : List Nat} {i : Nat} {rest : List Nat},
      selectNextD t sel l = some (i, rest) →
      l.filter (docSelectPred t sel) = i :: rest.filter (docSelectPred t sel)
        ∧ rest.length < l.length := by
  intro l
  induction l with
  | nil => intro i rest h; simp [selectNextD] at h
  | cons x xs ih =>
    intro i rest h
    rw [selectNextD] at h
    by_cases hp : docSelectPred t sel x
    · rw [if_pos hp] at h
      obtain ⟨rfl, rfl⟩ : x = i ∧ xs = rest := by
        constructor <;> [exact congrArg Prod.fst (Option.some.inj h);
          exact congrArg Prod.snd (Option.some.inj h)]
      exact ⟨by simp [List.filter_cons, hp], Nat.lt_succ_self _⟩
    · rw [if_neg hp] at h
      obtain ⟨h1, h2⟩ := ih h
      exact ⟨by simp [List.filter_cons, hp, h1], Nat.lt_succ_of_lt h2⟩

theorem consumeFwd_eq_filter {t : Tree} {sel : Selector} :
    ∀ (f : Nat) (l : List Nat), l.length ≤ f →
      consumeFwd t sel f l = l.filter (docSelectPred t sel) := by
  intro f
  induction f with
  | zero =>
    intro l h
    obtain rfl : l = [] := List.eq_nil_of_length_eq_zero (Nat.le_zero.1 h)
    rfl
  | succ f ih =>
    intro l h
    rw [consumeFwd]
    cases hs : selectNextD t sel l with
    | none => exact (selectNextD_none hs).symm
    | some pair =>
      obtain ⟨i, rest⟩ := pair
      obtain ⟨h1, h2⟩ := selectNextD_some hs
      show i :: consumeFwd t sel f rest = _
      rw [h1, ih rest (Nat.le_of_lt_succ (Nat.lt_of_lt_of_le h2 h))]

theorem consumeBwd_eq_filter {t : Tree} {sel : Selector} :
    ∀ (f : Nat) (l : List Nat), l.length ≤ f →
      consumeBwd t sel f l = (l.filter (docSelectPred t sel)).reverse := by
  intro f
  induction f with
  | zero =>
    intro l h
    obtain rfl : l = [] := List.eq_nil_of_length_eq_zero (Nat.le_zero.1 h)
    rfl
  | succ f ih =>
    intro l h
    rw [consumeBwd, selectNextBackD]
    cases hs : selectNextD t sel l.reverse with
    | none =>
      have h0 := selectNextD_none hs
      rw [List.filter_reverse] at h0
      exact h0.symm
    | some pair =>
      obtain ⟨i, rrest⟩ := pair
      obtain ⟨h1, h2⟩ := selectNextD_some hs
      rw [List.filter_reverse] at h1
      have hlen : rrest.reverse.length ≤ f := by
        have h3 : rrest.length < l.length := by simpa using h2
        simpa using Nat.le_of_lt_succ (Nat.lt_of_lt_of_le h3 h)
      have ihr := ih rrest.reverse hlen
      rw [List.filter_reverse] at ihr
      simp only [List.reverse_reverse] at ihr
      show i :: consumeBwd t sel f rrest.reverse = _
      rw [ihr, h1]

theorem selectIds_eq_filter (h : Html) (sel : Selector) (f : Nat) :
    h.selectIds sel f = (docOrder h.tree f).filter (docSelectPred h.tree sel) :=
  consumeFwd_eq_filter _ _ (Nat.le_refl _)

theorem selectIdsBack_eq_filter (h : Html) (sel : Selector) (f : Nat) :
    h.selectIdsBack sel f
      = ((docOrder h.tree f).filter (docSelectPred h.tree sel)).reverse :=
  consumeBwd_eq_filter _ _ (Nat.le_refl _)

theorem parentOf_some {t : Tree} {i p : Nat} (h : parentOf t i = some p) :
    ∃ n, t.get i = some n ∧ n.parent = some p := by
  unfold parentOf at h
  cases hg : t.get i with
  | none => rw [hg] at h; exact absurd h (by simp)
  | some n => rw [hg] at h; exact ⟨n, rfl, h⟩

theorem childrenOf_detach {t : Tree} {i p : Nat}
    (hpar : parentOf t i = some p) (j : Nat) :
    childrenOf (t.detach i) j
      = if p = j then (childrenOf t j).filter (fun c => c ≠ i) else childrenOf t j := by
  unfold Tree.detach
  rw [hpar]
  unfold childrenOf Tree.get
  simp only [modifyAt_get?]
  by_cases hpj : p = j <;> by_cases hij : i = j <;>
    cases harena : t.arena.get? j <;>
      simp [hpj, hij, harena]

theorem parentOf_detach {t : Tree} {i p : Nat}
    (hpar : parentOf t i = some p) (j : Nat) :
    parentOf (t.detach i) j = if i = j then none else parentOf t j := by
  unfold Tree.detach
  rw [hpar]
  unfold parentOf Tree.get
  simp only [modifyAt_get?]
  by_cases hpj : p = j <;> by_cases hij : i = j <;>
    cases harena : t.arena.get? j <;>
      simp [hpj, hij, harena]

theorem nodeValue_detach {t : Tree} {i p : Nat}
    (hpar : parentOf t i = some p) (j : Nat) :
    nodeValue (t.detach i) j = nodeValue t j := by
  unfold Tree.detach
  rw [hpar]
  unfold nodeValue Tree.get
  simp only [modifyAt_get?]
  by_cases hpj : p = j <;> by_cases hij : i = j <;>
    cases harena : t.arena.get? j <;>
      simp [hpj, hij, harena]

theorem uniqueParents_all {t : Tree} (hu : UniqueParents t) :
    ∀ a b, b ∈ childrenOf t a → parentOf t b = some a := by
  intro a b hb
  by_cases ha : a < t.arena.length
  · exact hu a ha b hb
  · have hn : t.get a = none := get_none_of_le (Nat.le_of_not_lt ha)
    rw [childrenOf, hn] at hb
    exact absurd hb (List.not_mem_nil b)

theorem not_mem_children_detach {t : Tree} {i p : Nat}
    (hu : ∀ a b, b ∈ childrenOf t a → parentOf t b = some a)
    (hpar : parentOf t i = some p) :
    ∀ j, i ∉ childrenOf (t.detach i) j := by
  intro j hmem
  rw [childrenOf_detach hpar] at hmem
  by_cases hpj : p = j
  · rw [if_pos hpj] at hmem
    have h1 := (List.mem_filter.1 hmem).2
    simp at h1
  · rw [if_neg hpj] at hmem
    have h1 := hu j i hmem
    rw [h1] at hpar
    exact hpj (Option.some.inj hpar).symm

theorem childrenOf_detach_subset {t : Tree} {i p : Nat}
    (hpar : parentOf t i = some p) {j c : Nat}
    (hc : c ∈ childrenOf (t.detach i) j) : c ∈ childrenOf t j := by
  rw [childrenOf_detach hpar] at hc
  by_cases hpj : p = j
  · rw [if_pos hpj] at hc
    exact (List.mem_filter.1 hc).1
  · rw [if_neg hpj] at hc
    exact hc

theorem no_path_to_detached {t : Tree} {i p : Nat}
    (hu : ∀ a b, b ∈ childrenOf t a → parentOf t b = some a)
    (hroot : parentOf t 0 = none)
    (hpar : parentOf t i = some p) :
    ¬ ChPath (t.detach i) 0 i := by
  intro hch
  cases hch with
  | refl =>
    rw [hroot] at hpar
    exact absurd hpar (by simp)
  | step h1 hmem => exact not_mem_children_detach hu hpar _ hmem

theorem detach_unreachable {t : Tree} {i p : Nat}
    (hu : ∀ a b, b ∈ childrenOf t a → parentOf t b = some a)
    (hroot : parentOf t 0 = none)
    (hpar : parentOf t i = some p) :
    ∀ {d : Nat}, ChPath t i d → ¬ ChPath (t.detach i) 0 d := by
  intro d hpath
  induction hpath with
  | refl => exact no_path_to_detached hu hroot hpar
  | step h1 hmem ih =>
    intro hcon
    cases hcon with
    | refl =>
      have h2 := hu _ _ hmem
      rw [hroot] at h2
      exact absurd h2 (by simp)
    | step h2 hmem2 =>
      have e1 := hu _ _ (childrenOf_detach_subset hpar hmem2)
      have e2 := hu _ _ hmem
      rw [e2] at e1
      have hb := Option.some.inj e1
      exact ih (by rw [hb]; exact h2)

theorem remove_node_eq_none {h : Html} {i : Nat} (hg : h.tree.get i = none) :
    h.remove_node i = h := by
  unfold Html.remove_node
  rw [hg]

theorem remove_node_eq_some {h : Html} {i : Nat} {n : TreeNode}
    (hg : h.tree.get i = some n) :
    h.remove_node i = { h with tree := h.tree.detach i } := by
  unfold Html.remove_node
  rw [hg]

theorem detach_noop {t : Tree} {i : Nat} (hp : parentOf t i = none) :
    t.detach i = t := by
  unfold Tree.detach
  rw [hp]

theorem remove_node_noop {h : Html} {i : Nat} (hp : parentOf h.tree i = none) :
    h.remove_node i = h := by
  cases hg : h.tree.get i with
  | none => exact remove_node_eq_none hg
  | some n =>
    rw [remove_node_eq_some hg, detach_noop hp]

theorem remove_node_idem (h : Html) (i : Nat) :
    (h.remove_node i).remove_node i = h.remove_node i := by
  cases hpp : parentOf h.tree i with
  | none => rw [remove_node_noop hpp, remove_node_noop hpp]
  | some p =>
    obtain ⟨n, hg, hp⟩ := parentOf_some hpp
    rw [remove_node_eq_some hg]
    exact remove_node_noop
      (show parentOf (h.tree.detach i) i = none by
        rw [parentOf_detach hpp]
        simp)

theorem dfs_none {t : Tree} {c : Nat} (hg : t.get c = none) (f : Nat) :
    dfs t (f + 1) c = [] := by
  rw [dfs, hg]

theorem dfs_some {t : Tree} {c : Nat} {n : TreeNode} (hg : t.get c = some n) (f : Nat) :
    dfs t (f + 1) c = c :: n.children.flatMap (fun x => dfs t f x) := by
  rw [dfs, hg]

theorem edges_none {t : Tree} {c : Nat} (hg : t.get c = none) (f : Nat) :
    edges t (f + 1) c = [] := by
  rw [edges, hg]

theorem edges_some {t : Tree} {c : Nat} {n : TreeNode} (hg : t.get c = some n) (f : Nat) :
    edges t (f + 1) c
      = Edge.enter c :: (n.children.flatMap (fun x => edges t f x) ++ [Edge.leave c]) := by
  rw [edges, hg]

theorem filterMap_guard {α : Type} (p : α → Bool) :
    ∀ l : List α, l.filterMap (fun d => if p d then some d else none) = l.filter p := by
  intro l
  induction l with
  | nil => rfl
  | cons x xs ih =>
    by_cases hp : p x <;> simp [List.filterMap_cons, List.filter_cons, hp, ih]

theorem filterMap_onEnter_edges {β : Type} (t : Tree) (g : Nat → Option β) :
    ∀ f c, (edges t f c).filterMap (onEnter g) = (dfs t f c).filterMap g := by
  intro f
  induction f with
  | zero => intro c; rfl
  | succ f ih =>
    intro c
    cases hg : t.get c with
    | none => simp [edges_none hg, dfs_none hg]
    | some n =>
      rw [edges_some hg, dfs_some hg]
      have inner : ∀ l : List Nat,
          (l.flatMap (fun x => edges t f x)).filterMap (onEnter g)
            = (l.flatMap (fun x => dfs t f x)).filterMap g := by
        intro l
        induction l with
        | nil => rfl
        | cons x xs ihl =>
          simp only [List.flatMap_cons, List.filterMap_append, ih x, ihl]
      cases hgc : g c <;>
        simp [List.filterMap_cons, List.filterMap_append, onEnter, hgc, inner]

theorem filterMap_onEnter_flatMap {β : Type} (t : Tree) (g : Nat → Option β) (f : Nat) :
    ∀ l : List Nat,
      (l.flatMap (fun x => edges t f x)).filterMap (onEnter g)
        = (l.flatMap (fun x => dfs t f x)).filterMap g := by
  intro l
  induction l with
  | nil => rfl
  | cons x xs ihl =>
    simp only [List.flatMap_cons, List.filterMap_append, filterMap_onEnter_edges t g f x, ihl]

theorem scopedSelFn_eq (t : Tree) (sel : Selector) (e : Nat) :
    scopedSelFn t sel e
      = onEnter (fun d =>
          if isElem t d && sel.matchesScope t d (some e) then some d else none) := by
  funext ed
  cases ed <;> rfl

theorem processable_eq (t : Tree) (d : Nat) :
    processable t d = !parentScriptStyle t d := by
  cases hp : parentOf t d with
  | none => simp [processable, parentScriptStyle, hp]
  | some p =>
    cases hv : nodeValue t p with
    | none => simp [processable, parentScriptStyle, elemName, hp, hv]
    | some v =>
      cases v <;> simp [processable, parentScriptStyle, elemName, hp, hv, Node.as_element]

theorem textFn_eq (t : Tree) :
    textFn t
      = onEnter (fun d =>
          match nodeValue t d with
          | some (Node.text s) => if parentScriptStyle t d then none else some s
          | _ => none) := by
  funext ed
  cases ed with
  | leave i => rfl
  | enter d =>
    cases hv : nodeValue t d with
    | none => simp [textFn, onEnter, hv, ite_self]
    | some v =>
      cases v with
      | text s =>
        simp only [textFn, onEnter, processable_eq, hv]
        cases hb : parentScriptStyle t d <;> simp [hb]
      | document => simp [textFn, onEnter, hv, ite_self]
      | fragment => simp [textFn, onEnter, hv, ite_self]
      | doctype a b c => simp [textFn, onEnter, hv, ite_self]
      | comment s => simp [textFn, onEnter, hv, ite_self]
      | element e => simp [textFn, onEnter, hv, ite_self]
      | processingInstruction a b => simp [textFn, onEnter, hv, ite_self]

theorem mem_drop_one_dfs {t : Tree} {f e d : Nat} (h : d ∈ (dfs t f e).drop 1) :
    ∃ c ∈ childrenOf t e, ChPath t c d := by
  cases f with
  | zero => simp [dfs] at h
  | succ f =>
    cases hg : t.get e with
    | none => rw [dfs_none hg] at h; simp at h
    | some n =>
      rw [dfs_some hg] at h
      simp only [List.drop_succ_cons, List.drop_zero] at h
      rcases List.mem_flatMap.1 h with ⟨c, hc, hd⟩
      exact ⟨c, by simp [childrenOf, hg, hc], dfs_mem_chpath hd⟩

theorem filterMap_onEnter_leave {β : Type} (g : Nat → Option β) (i : Nat) :
    List.filterMap (onEnter g) [Edge.leave i] = [] := rfl

theorem isElem_eq_any (t : Tree) (i : Nat) :
    (nodeValue t i).any Node.is_element = isElem t i := by
  unfold isElem
  cases hv : nodeValue t i <;> rfl

theorem wrap_of_isElem {t : Tree} {i : Nat} (hi : isElem t i = true) :
    ElementRef.wrap t i = some (ElementRef.new i) := by
  simp [ElementRef.wrap, isElem_eq_any, hi]

theorem wrap_of_not_elem {t : Tree} {i : Nat} (hi : isElem t i = false) :
    ElementRef.wrap t i = none := by
  simp [ElementRef.wrap, isElem_eq_any, hi]

theorem find?_append_first {α : Type} (p : α → Bool) (c : α) (post : List α) :
    ∀ pre : List α, (∀ x ∈ pre, p x = false) → p c = true →
      (pre ++ c :: post).find? p = some c := by
  intro pre
  induction pre with
  | nil => intro _ hc; simp [List.find?_cons_of_pos _ hc]
  | cons x xs ih =>
    intro hall hc
    have hx : p x = false := hall x (List.mem_cons_self x xs)
    rw [List.cons_append, List.find?_cons_of_neg _ (by simp [hx]),
      ih (fun y hy => hall y (List.mem_cons_of_mem x hy)) hc]

/-! ## Claim theorems -/

/-- C2: for every element reference and selector, the scoped select
iterates the descendant traversal of the element in pre-order skipping the
opening edge of the element itself, yielding exactly the descendant elements
matched with the element supplied as the `:scope` anchor on every
candidate; every yielded node lies strictly inside the subtree of the element
(below one of its children), never elsewhere in the document. -/
theorem elementRef_select_spec (t : Tree) (sel : Selector) (e f : Nat) :
    ElementRef.selectIds t sel e f
      = ((dfs t f e).drop 1).filter (fun d => isElem t d && sel.matchesScope t d (some e))
    ∧ ∀ d, d ∈ ElementRef.selectIds t sel e f → ∃ c ∈ childrenOf t e, ChPath t c d := by
  have heq : ElementRef.selectIds t sel e f
      = ((dfs t f e).drop 1).filter
          (fun d => isElem t d && sel.matchesScope t d (some e)) := by
    unfold ElementRef.selectIds
    rw [scopedSelFn_eq]
    cases f with
    | zero => rfl
    | succ f =>
      cases hg : t.get e with
      | none => simp [edges_none hg, dfs_none hg]
      | some n =>
        rw [edges_some hg, dfs_some hg]
        simp only [List.drop_succ_cons, List.drop_zero]
        rw [List.filterMap_append, filterMap_onEnter_leave, List.append_nil,
          filterMap_onEnter_flatMap]
        exact filterMap_guard _ _
  exact ⟨heq, fun d hd => mem_drop_one_dfs (List.mem_of_mem_filter (heq ▸ hd))⟩

/-- Witness for C2 at a concrete document: node 4 (a `p` descendant of the
`div` node 2) is yielded by the scoped select and indeed lies below a
child of node 2. -/
theorem elementRef_select_witness :
    ∃ c ∈ childrenOf sampleDoc.tree 2, ChPath sampleDoc.tree c 4 :=
  (elementRef_select_spec sampleDoc.tree (tagSelector "p") 2 8).2 4 (by decide)

/-- C3: for every element reference, text extraction yields exactly the
content of the text nodes of the descendant traversal of the element, in
traversal order, excluding a text node exactly when its immediate parent
is an element named `script` or `style` (case-sensitive). -/
theorem elementRef_text_spec (t : Tree) (e f : Nat) :
    ElementRef.textSlices t e f
      = (dfs t f e).filterMap (fun d =>
          match nodeValue t d with
          | some (Node.text s) => if parentScriptStyle t d then none else some s
          | _ => none) := by
  unfold ElementRef.textSlices
  rw [textFn_eq]
  exact filterMap_onEnter_edges t _ f e

/-- C5: document-level select, fully consumed, yields exactly the element
nodes of the document-order walk that have a parent and satisfy the
selector with no scope restriction; under the root-has-no-parent invariant
the synthetic root is never yielded. -/
theorem html_select_spec (h : Html) (sel : Selector) (f : Nat) :
    h.selectIds sel f
      = (docOrder h.tree f).filter
          (fun i => isElem h.tree i && (parentOf h.tree i).isSome && sel.matches h.tree i)
    ∧ (parentOf h.tree 0 = none → 0 ∉ h.selectIds sel f) := by
  constructor
  · exact selectIds_eq_filter h sel f
  · intro hroot hmem
    rw [selectIds_eq_filter] at hmem
    have h1 := List.of_mem_filter hmem
    simp [docSelectPred, hroot] at h1

/-- Witness for C5: the synthetic root of the concrete document is not
yielded by a full document-level select. -/
theorem html_select_witness :
    0 ∉ sampleDoc.selectIds (tagSelector "p") 8 :=
  (html_select_spec sampleDoc (tagSelector "p") 8).2 (by decide)

/-- C6: fully consuming the document-level select iterator backward via
`next_back` yields exactly the reversal of the forward consumption. -/
theorem select_rev_spec (h : Html) (sel : Selector) (f : Nat) :
    h.selectIdsBack sel f = (h.selectIds sel f).reverse := by
  rw [selectIdsBack_eq_filter, selectIds_eq_filter]

/-- C7 divergence witness: a `parse_error` event is discarded entirely by
the sink — the resulting document is identical to the one built without
the event, and construction of the remaining events continues; no error
log exists on `Html` for the message to land in. -/
theorem parse_error_discarded (h : Html) (es1 es2 : List SinkEvent) (m : String) :
    sinkRun h (es1 ++ SinkEvent.parseError m :: es2) = sinkRun h (es1 ++ es2) := by
  unfold sinkRun
  rw [List.foldl_append, List.foldl_append, List.foldl_cons]
  rfl

/-- C1 (amended): for every node identifier that resolves to a node with a
parent, `remove_node` detaches the node so that neither it nor any node of
its subtree is yielded by a subsequent document-level select; repeating
the removal is a no-op, and an identifier that does not resolve leaves the
document unchanged. -/
theorem remove_node_removes_subtree (h : Html) (sel : Selector) (f f2 i p d : Nat)
    (hu : UniqueParents h.tree)
    (hroot : parentOf h.tree 0 = none)
    (hpar : parentOf h.tree i = some p)
    (hd : d ∈ dfs h.tree f2 i) :
    d ∉ (h.remove_node i).selectIds sel f
    ∧ (h.remove_node i).remove_node i = h.remove_node i
    ∧ (∀ j, h.tree.get j = none → h.remove_node j = h) := by
  obtain ⟨n, hg, hp⟩ := parentOf_some hpar
  refine ⟨?_, remove_node_idem h i, fun j hj => remove_node_eq_none hj⟩
  intro hmem
  rw [remove_node_eq_some hg, selectIds_eq_filter] at hmem
  have hdo := List.mem_of_mem_filter hmem
  exact detach_unreachable (uniqueParents_all hu) hroot hpar (dfs_mem_chpath hd)
    (dfs_mem_chpath hdo)

/-- Counterexample to C1 as stated: the root identifier (0) is a valid
identifier of the tree of the concrete document, node 4 belongs to the
subtree of the root, yet after `remove_node 0` (a no-op, since the root has no parent
to be detached from) node 4 is still yielded by a subsequent select. -/
theorem remove_node_root_cex :
    (sampleDoc.tree.get 0).isSome = true
    ∧ 4 ∈ dfs sampleDoc.tree 8 0
    ∧ 4 ∈ (sampleDoc.remove_node 0).selectIds (tagSelector "p") 8 := by
  decide

/-- Witness for C1 at a concrete document: after removing the `div`
node 2, its descendant `p` node 4 is no longer yielded. -/
theorem remove_node_removes_subtree_witness :
    4 ∉ (sampleDoc.remove_node 2).selectIds (tagSelector "p") 8 :=
  (remove_node_removes_subtree sampleDoc (tagSelector "p") 8 8 2 1 4
    (by decide) (by decide) (by decide) (by decide)).1

/-- C4 (amended): the explicitly stored language wins only when non-empty;
when it is empty (never set, or set to the empty string) `get_lang` falls
back to the `lang` attribute of the first element yielded by the fixed
`html` selector, and to the empty string when there is no such element or
attribute. -/
theorem get_lang_spec (h : Html) (f : Nat) :
    h.get_lang f
      = if h.lang = "" then
          (((h.selectIds htmlSelector f).head?.bind
              (fun i => (nodeValue h.tree i).bind Node.as_element)).bind
            (fun e => e.attr "lang")).getD ""
        else h.lang := by
  unfold Html.get_lang
  by_cases hl : h.lang = ""
  · rw [if_pos ((String.isEmpty_iff h.lang).2 hl), if_pos hl]
    cases hh : (h.selectIds htmlSelector f).head? with
    | none => simp [hh, hl]
    | some i =>
      cases hv : (nodeValue h.tree i).bind Node.as_element with
      | none => simp [hh, hv, hl]
      | some e0 =>
        cases ha : e0.attr "lang" with
        | none => simp [hh, hv, ha, hl]
        | some lng => simp [hh, hv, ha]
  · rw [if_neg (fun hc => hl ((String.isEmpty_iff h.lang).1 hc)), if_neg hl]

/-- Counterexample to C4 as stated: calling `set_language ""` does not
win — on the concrete document, `get_lang` afterwards returns the `lang`
attribute `"fr"` of the `html` element instead of the explicitly set
empty string. -/
theorem set_language_empty_cex :
    (sampleDoc.set_language "").get_lang 8 = "fr" ∧ ("fr" : String) ≠ "" := by
  constructor
  · decide
  · decide

/-- C8: `root_element` fails (the `expect` panic, modelled as `none`)
exactly when the tree root has no element child; whenever the child list
of the root splits as non-elements (such as a doctype or comment) followed by an
element, that first element is returned wrapped. -/
theorem root_element_spec (h : Html) :
    (h.root_element = none ↔ ∀ c ∈ childrenOf h.tree 0, isElem h.tree c = false)
    ∧ (∀ pre c post,
        childrenOf h.tree 0 = pre ++ c :: post →
        (∀ x ∈ pre, isElem h.tree x = false) →
        isElem h.tree c = true →
        h.root_element = some (ElementRef.new c)) := by
  refine ⟨?_, ?_⟩
  · cases hf : (childrenOf h.tree 0).find? (fun c => isElem h.tree c) with
    | none =>
      have hre : h.root_element = none := by
        unfold Html.root_element
        rw [hf]
        rfl
      rw [hre]
      constructor
      · intro _ c hc
        simpa using List.find?_eq_none.1 hf c hc
      · intro _
        rfl
    | some c =>
      have hre : h.root_element = some (ElementRef.new c) := by
        unfold Html.root_element
        rw [hf]
        show ElementRef.wrap h.tree c = _
        exact wrap_of_isElem (List.find?_some hf)
      rw [hre]
      constructor
      · intro hcon
        exact absurd hcon (by simp)
      · intro hall
        exact absurd (List.find?_some hf)
          (by simp [hall c (List.mem_of_find?_eq_some hf)])
  · intro pre c post hsplit hall hc
    unfold Html.root_element
    rw [hsplit, find?_append_first _ c post pre hall hc]
    show ElementRef.wrap h.tree c = _
    exact wrap_of_isElem hc

/-- Witness for C8: on the document whose root children are a doctype, a
comment and then the `html` element, `root_element` returns that element,
skipping the leading non-element children. -/
theorem root_element_witness :
    sampleDoc2.root_element = some (ElementRef.new 3) :=
  (root_element_spec sampleDoc2).2 [1, 2] 3 [] (by decide) (by decide) (by decide)

/-- C9: all three serialization entry points ignore the external
error flag of the external serializer and return the total conversion of
whatever bytes were written; the repairing conversion extends strict
decoding (it only ever replaces undecodable sequences, never rejects). -/
theorem serialize_total_spec :
    (∀ (h : Html) (ser : SerInput → List Nat × Bool) (bs : List Nat) (flag : Bool),
        ser (SerInput.doc h.tree) = (bs, flag) → h.htmlCode ser = autoEncodeBytes bs)
    ∧ (∀ (t : Tree) (r : ElementRef) (ser : SerInput → List Nat × Bool)
          (bs : List Nat) (flag : Bool),
        ser (SerInput.node t r.id) = (bs, flag) → r.htmlCode t ser = autoEncodeBytes bs)
    ∧ (∀ (t : Tree) (r : ElementRef) (ser : SerInput → List Nat × Bool)
          (bs : List Nat) (flag : Bool),
        ser (SerInput.childrenOnly t r.id) = (bs, flag) →
          r.innerHtmlCode t ser = autoEncodeBytes bs)
    ∧ (∀ (fuel : Nat) (bs out : List Nat),
        decodeStrict fuel bs = some out → decodeReplace fuel bs = out) := by
  refine ⟨?_, ?_, ?_, ?_⟩
  · intro h ser bs flag hser
    unfold Html.htmlCode
    rw [hser]
  · intro t r ser bs flag hser
    unfold ElementRef.htmlCode
    rw [hser]
  · intro t r ser bs flag hser
    unfold ElementRef.innerHtmlCode
    rw [hser]
  · intro fuel
    induction fuel with
    | zero =>
      intro bs out hout
      by_cases hbs : bs.isEmpty
      · have hstep : decodeStrict 0 bs = some [] := by rw [decodeStrict, if_pos hbs]
        rw [hstep] at hout
        exact Option.some.inj hout
      · have hstep : decodeStrict 0 bs = none := by rw [decodeStrict, if_neg hbs]
        rw [hstep] at hout
        exact absurd hout (by simp)
    | succ fuel ih =>
      intro bs out hout
      cases hs : utf8Step bs with
      | none =>
        have hstep : decodeStrict (fuel + 1) bs = some [] := by rw [decodeStrict, hs]
        have hrep : decodeReplace (fuel + 1) bs = [] := by rw [decodeReplace, hs]
        rw [hstep] at hout
        rw [hrep]
        exact Option.some.inj hout
      | some pair =>
        obtain ⟨oc, r⟩ := pair
        cases oc with
        | none =>
          have hstep : decodeStrict (fuel + 1) bs = none := by rw [decodeStrict, hs]
          rw [hstep] at hout
          exact absurd hout (by simp)
        | some c =>
          have hstep : decodeStrict (fuel + 1) bs
              = (decodeStrict fuel r).map (fun w => c :: w) := by
            rw [decodeStrict, hs]
          have hrep : decodeReplace (fuel + 1) bs = c :: decodeReplace fuel r := by
            rw [decodeReplace, hs]
          rw [hstep] at hout
          cases hdr : decodeStrict fuel r with
          | none =>
            rw [hdr] at hout
            exact absurd hout (by simp)
          | some l =>
            rw [hdr] at hout
            have hcl : c :: l = out := Option.some.inj hout
            rw [hrep, ih r l hdr, hcl]

/-- Witness for C9: a serializer that reports an error still produces a
string, the undecodable byte 255 being replaced by U+FFFD; a decodable
sequence decodes identically in strict and repairing modes. -/
theorem serialize_total_witness :
    Html.htmlCode sampleDoc (fun _ => ([255, 65], true)) = autoEncodeBytes [255, 65]
    ∧ decodeReplace 3 [65, 194, 169] = [65, 169]
    ∧ autoEncodeBytes [255, 65] = [65533, 65] :=
  ⟨serialize_total_spec.1 sampleDoc _ [255, 65] true rfl,
   serialize_total_spec.2.2.2 3 [65, 194, 169] [65, 169] (by decide),
   by decide⟩

/-- C10: wrapping succeeds exactly on Element nodes, returning the handle
(never panicking on other variants), and on every handle produced by
`wrap` the `value` accessor finds element data, so its non-element failure
branch is unreachable. -/
theorem wrap_element_spec (t : Tree) (i : Nat) :
    ((ElementRef.wrap t i).isSome ↔ ∃ e, nodeValue t i = some (Node.element e))
    ∧ (∀ r, ElementRef.wrap t i = some r →
        r = ElementRef.new i ∧ (ElementRef.val t r).isSome) := by
  constructor
  · cases hv : nodeValue t i with
    | none =>
      rw [wrap_of_not_elem (by simp [isElem, hv])]
      simp
    | some v =>
      cases v with
      | element e0 =>
        rw [wrap_of_isElem (by simp [isElem, hv, Node.is_element])]
        simp
      | document =>
        rw [wrap_of_not_elem (by simp [isElem, hv, Node.is_element])]
        simp
      | fragment =>
        rw [wrap_of_not_elem (by simp [isElem, hv, Node.is_element])]
        simp
      | doctype a b c =>
        rw [wrap_of_not_elem (by simp [isElem, hv, Node.is_element])]
        simp
      | comment s =>
        rw [wrap_of_not_elem (by simp [isElem, hv, Node.is_element])]
        simp
      | text s =>
        rw [wrap_of_not_elem (by simp [isElem, hv, Node.is_element])]
        simp
      | processingInstruction a b =>
        rw [wrap_of_not_elem (by simp [isElem, hv, Node.is_element])]
        simp
  · intro r hr
    by_cases hi : isElem t i = true
    · rw [wrap_of_isElem hi] at hr
      obtain rfl : ElementRef.new i = r := Option.some.inj hr
      refine ⟨rfl, ?_⟩
      cases hv : nodeValue t i with
      | none => simp [isElem, hv] at hi
      | some v =>
        cases v with
        | element e0 =>
          show ((nodeValue t i).bind Node.as_element).isSome
          rw [hv]
          rfl
        | document => simp [isElem, hv, Node.is_element] at hi
        | fragment => simp [isElem, hv, Node.is_element] at hi
        | doctype a b c => simp [isElem, hv, Node.is_element] at hi
        | comment s => simp [isElem, hv, Node.is_element] at hi
        | text s => simp [isElem, hv, Node.is_element] at hi
        | processingInstruction a b => simp [isElem, hv, Node.is_element] at hi
    · have hif : isElem t i = false := by
        revert hi
        cases isElem t i <;> simp
      rw [wrap_of_not_elem hif] at hr
      exact absurd hr (by simp)

/-- Witness for C10: node 1 of the concrete document is an Element, its
wrap succeeds, and `value` on the wrapped handle finds the element data;
node 0 (the Document variant) wraps to nothing. -/
theorem wrap_element_witness :
    (ElementRef.wrap sampleDoc.tree 1).isSome
    ∧ (ElementRef.val sampleDoc.tree (ElementRef.new 1)).isSome
    ∧ ElementRef.wrap sampleDoc.tree 0 = none :=
  ⟨(wrap_element_spec sampleDoc.tree 1).1.2 ⟨⟨"html", [("lang", "fr")]⟩, by decide⟩,
   ((wrap_element_spec sampleDoc.tree 1).2 (ElementRef.new 1) (by decide)).2,
   by decide⟩

end Scraper
